import Mathlib

/-! Verification of the nanoGPT character-level transformer in src/attention.py.

A tensor of shape (B, T, D) is embedded as a function Fin B → Fin T → Fin D → α
over a linear ordered field α. The numeric primitives that the source delegates
to the tensor engine (exp, log, sqrt) are collected in a NumOps record and the
theorems instantiate them with the real functions Real.exp, Real.log, Real.sqrt.
The float value -inf produced by masked_fill is embedded as the bottom element
of WithBot α, with exp(-inf) = 0 as in IEEE arithmetic. -/

namespace NanoGPT

/-- Hyperparameter batch_size = 32 (src/attention.py line 8). -/
def batch_size : ℕ := 32

/-- Hyperparameter block_size = 8, the context length (line 9). -/
def block_size : ℕ := 8

/-- Hyperparameter max_iters = 5000 (line 10). -/
def max_iters : ℕ := 5000

/-- Hyperparameter eval_interval = 300 (line 11). -/
def eval_interval : ℕ := 300

/-- Hyperparameter eval_iters = 200 (line 14). -/
def eval_iters : ℕ := 200

/-- Hyperparameter n_embd = 32 (line 15). -/
def n_embd : ℕ := 32

/-- Numeric primitives supplied by the tensor engine boundary (spec section 6). -/
structure NumOps (α : Type) where
  exp : α → α
  log : α → α
  sqrt : α → α

variable {α : Type} [LinearOrderedField α]
variable {B T E H V D N n : ℕ}

/-- Parameters of nn.Linear(inF, outF): weight of shape (outF, inF) and bias. -/
structure LinearP (inF outF : ℕ) (α : Type) where
  weight : Fin outF → Fin inF → α
  bias : Fin outF → α

/-- Application of nn.Linear to a feature vector: v @ weight.T + bias. -/
def LinearP.apply {inF outF : ℕ} (p : LinearP inF outF α) (v : Fin inF → α) : Fin outF → α :=
  fun o => (∑ i, p.weight o i * v i) + p.bias o

/-- Parameters of one Head of self-attention (lines 68-73): the three bias-free
projections nn.Linear(n_embd, head_size, bias=False); E is the embedding width
and H the head size. -/
structure Head (E H : ℕ) (α : Type) where
  key : Fin H → Fin E → α
  query : Fin H → Fin E → α
  value : Fin H → Fin E → α

/-- The registered buffer torch.tril(torch.ones(m, m)) (line 73): entry (i, j)
is 1 at or below the diagonal and 0 strictly above it. -/
def tril (m : ℕ) : Fin m → Fin m → α :=
  fun i j => if (j : ℕ) ≤ (i : ℕ) then 1 else 0

/-- The slice self.tril[:T, :T] used in line 81, defined for T ≤ block_size. -/
def trilSlice (T : ℕ) (hT : T ≤ block_size) : Fin T → Fin T → α :=
  fun i j =>
    tril block_size ⟨i, lt_of_lt_of_le i.isLt hT⟩ ⟨j, lt_of_lt_of_le j.isLt hT⟩

/-- k = self.key(x) (line 77). -/
def Head.k (p : Head E H α) (x : Fin B → Fin T → Fin E → α) :
    Fin B → Fin T → Fin H → α :=
  fun b t h => ∑ d, p.key h d * x b t d

/-- q = self.query(x) (line 78). -/
def Head.q (p : Head E H α) (x : Fin B → Fin T → Fin E → α) :
    Fin B → Fin T → Fin H → α :=
  fun b t h => ∑ d, p.query h d * x b t d

/-- v = self.value(x) (line 84). -/
def Head.vv (p : Head E H α) (x : Fin B → Fin T → Fin E → α) :
    Fin B → Fin T → Fin H → α :=
  fun b t h => ∑ d, p.value h d * x b t d

/-- Raw scores wei = q @ k.transpose(-2, -1) * head_size ** -0.5 (line 80). -/
def Head.scores (ops : NumOps α) (p : Head E H α) (x : Fin B → Fin T → Fin E → α) :
    Fin B → Fin T → Fin T → α :=
  fun b t j => (∑ h, Head.q p x b t h * Head.k p x b j h) * (ops.sqrt (H : α))⁻¹

/-- wei.masked_fill(self.tril[:T, :T] == 0, float('-inf')) (line 81); the float
-inf is the bottom element of WithBot α. -/
def Head.masked (ops : NumOps α) (p : Head E H α) (x : Fin B → Fin T → Fin E → α)
    (hT : T ≤ block_size) : Fin B → Fin T → Fin T → WithBot α :=
  fun b t j =>
    if trilSlice T hT t j = (0 : α) then ⊥ else ((Head.scores ops p x b t j : α) : WithBot α)

/-- The exponential applied by softmax, extended to masked entries: the float
rule exp(-inf) = 0. -/
def eexp (ops : NumOps α) (x : WithBot α) : α :=
  WithBot.recBotCoe 0 (fun a => ops.exp a) x

/-- wei = F.softmax(wei, dim=-1) (line 82): each exponentiated entry divided by
the row sum of exponentiated entries. -/
def Head.wei (ops : NumOps α) (p : Head E H α) (x : Fin B → Fin T → Fin E → α)
    (hT : T ≤ block_size) : Fin B → Fin T → Fin T → α :=
  fun b t j =>
    eexp ops (Head.masked ops p x hT b t j) / ∑ l, eexp ops (Head.masked ops p x hT b t l)

/-- out = wei @ v (line 85): Head.forward returns the weighted aggregation of
the values. -/
def Head.forward (ops : NumOps α) (p : Head E H α) (x : Fin B → Fin T → Fin E → α)
    (hT : T ≤ block_size) : Fin B → Fin T → Fin H → α :=
  fun b t h => ∑ j, Head.wei ops p x hT b t j * Head.vv p x b j h

/-- Parameters of MultiHeadAttention (lines 91-94): n independent heads of size
H plus the output projection nn.Linear(n_embd, n_embd). -/
structure MultiHeadAttention (E n H : ℕ) (α : Type) where
  heads : Fin n → Head E H α
  proj : LinearP E E α

/-- torch.cat([h(x) for h in self.heads], dim=-1) (line 97): concatenated
feature j comes from head j / H at coordinate j % H, in the fixed order of the
module list. -/
def MultiHeadAttention.cat (ops : NumOps α) (m : MultiHeadAttention E n H α)
    (x : Fin B → Fin T → Fin E → α) (hT : T ≤ block_size) :
    Fin B → Fin T → Fin (n * H) → α :=
  fun b t j =>
    Head.forward ops
      (m.heads ⟨(j : ℕ) / H, by
        have hj := j.isLt
        have hnH : 0 < n * H := Nat.lt_of_le_of_lt (Nat.zero_le _) hj
        have hH : 0 < H := Nat.pos_of_ne_zero (fun h0 => by
          rw [h0, Nat.mul_zero] at hnH
          exact Nat.lt_irrefl 0 hnH)
        exact (Nat.div_lt_iff_lt_mul hH).2 hj⟩)
      x hT b t
      ⟨(j : ℕ) % H, by
        have hj := j.isLt
        have hnH : 0 < n * H := Nat.lt_of_le_of_lt (Nat.zero_le _) hj
        have hH : 0 < H := Nat.pos_of_ne_zero (fun h0 => by
          rw [h0, Nat.mul_zero] at hnH
          exact Nat.lt_irrefl 0 hnH)
        exact Nat.mod_lt _ hH⟩

/-- MultiHeadAttention.forward (lines 96-99) when the concatenated width n * H
matches the projection input width E: out = self.proj(torch.cat(...)). -/
def MultiHeadAttention.forward (ops : NumOps α) (m : MultiHeadAttention E n H α)
    (hw : n * H = E) (x : Fin B → Fin T → Fin E → α) (hT : T ≤ block_size) :
    Fin B → Fin T → Fin E → α :=
  fun b t o =>
    LinearP.apply m.proj
      (fun i => MultiHeadAttention.cat ops m x hT b t (Fin.cast hw.symm i)) o

/-- MultiHeadAttention.forward with the runtime shape check of the projection
matmul made explicit: self.proj requires an input of width E, so the call fails
when the concatenated width n * H differs from E. -/
def MultiHeadAttention.forwardChk (ops : NumOps α) (m : MultiHeadAttention E n H α)
    (x : Fin B → Fin T → Fin E → α) (hT : T ≤ block_size) :
    Option (Fin B → Fin T → Fin E → α) :=
  if hw : n * H = E then some (MultiHeadAttention.forward ops m hw x hT) else none

/-- Parameters of FeedForward (lines 104-110): Linear(E, 4E), ReLU, Linear(4E, E). -/
structure FeedForward (E : ℕ) (α : Type) where
  lin1 : LinearP E (4 * E) α
  lin2 : LinearP (4 * E) E α

/-- FeedForward.forward (lines 112-114): the position-wise two-layer transform
with the rectified-linear nonlinearity in between. -/
def FeedForward.forward (f : FeedForward E α) (v : Fin E → α) : Fin E → α :=
  LinearP.apply f.lin2 (fun i => max 0 (LinearP.apply f.lin1 v i))

/-- Parameters of nn.LayerNorm(E): the elementwise affine weight and bias. -/
structure LayerNormP (E : ℕ) (α : Type) where
  gamma : Fin E → α
  beta : Fin E → α

/-- nn.LayerNorm over the feature dimension: gamma * (v - mean) / sqrt(var + eps)
+ beta with eps = 1e-5 and the biased variance. -/
def layerNorm (ops : NumOps α) (p : LayerNormP E α) (v : Fin E → α) : Fin E → α :=
  fun d =>
    p.gamma d *
        ((v d - (∑ i, v i) / (E : α)) /
          ops.sqrt ((∑ i, (v i - (∑ l, v l) / (E : α)) ^ 2) / (E : α) + 1 / 100000)) +
      p.beta d

/-- Parameters of Block (lines 119-126). Block.__init__ silently computes
head_size = n_embd // n_head by floor division; hw records the shape
compatibility n_head * head_size = E that the forward pass needs (it holds
exactly when n_head divides E, see the C9 theorems). -/
structure Block (E : ℕ) (α : Type) where
  n_head : ℕ
  sa : MultiHeadAttention E n_head (E / n_head) α
  ffwd : FeedForward E α
  ln1 : LayerNormP E α
  ln2 : LayerNormP E α
  hw : n_head * (E / n_head) = E

/-- Block.forward (lines 128-131): x = x + self.sa(self.ln1(x)) followed by
x = x + self.ffwd(self.ln2(x)). -/
def Block.forward (ops : NumOps α) (bk : Block E α) (x : Fin B → Fin T → Fin E → α)
    (hT : T ≤ block_size) : Fin B → Fin T → Fin E → α :=
  let x1 : Fin B → Fin T → Fin E → α :=
    fun b t d =>
      x b t d +
        MultiHeadAttention.forward ops bk.sa bk.hw
          (fun b' t' => layerNorm ops bk.ln1 (x b' t')) hT b t d
  fun b t d => x1 b t d + FeedForward.forward bk.ffwd (layerNorm ops bk.ln2 (x1 b t)) d

/-- Parameters of BigramLanguageModel (lines 136-149): token and position
embedding tables, the nn.Sequential stack of Blocks followed by a final
LayerNorm (the source instantiates three blocks with n_head = 4), and the
lm_head projection to vocabulary logits. -/
structure BigramLanguageModel (V D : ℕ) (α : Type) where
  token_embedding_table : Fin V → Fin D → α
  position_embedding_table : Fin block_size → Fin D → α
  blocks : List (Block D α)
  ln_f : LayerNormP D α
  lm_head : LinearP D V α

/-- The logits pipeline of BigramLanguageModel.forward (lines 151-159):
token embedding plus position embedding, the block stack, the final layer norm,
then lm_head. Position lookup needs T ≤ block_size. -/
def BigramLanguageModel.logits (ops : NumOps α) (p : BigramLanguageModel V D α)
    (idx : Fin B → Fin T → Fin V) (hT : T ≤ block_size) :
    Fin B → Fin T → Fin V → α :=
  let x0 : Fin B → Fin T → Fin D → α :=
    fun b t d =>
      p.token_embedding_table (idx b t) d +
        p.position_embedding_table ⟨t, lt_of_lt_of_le t.isLt hT⟩ d
  let xN := p.blocks.foldl (fun acc bk => Block.forward ops bk acc hT) x0
  fun b t v => LinearP.apply p.lm_head (layerNorm ops p.ln_f (xN b t)) v

/-- F.softmax over a plain real-valued row of logits (line 181). -/
def softmaxFun (ops : NumOps α) (v : Fin V → α) : Fin V → α :=
  fun j => ops.exp (v j) / ∑ l, ops.exp (v l)

/-- One summand of F.cross_entropy: the negative log softmax probability that
the row assigns to the target class. -/
def ceTerm (ops : NumOps α) (v : Fin V → α) (y : Fin V) : α :=
  -(ops.log (softmaxFun ops v y))

/-- F.cross_entropy(input (N, C), target (N)) with the default mean reduction
(line 167). -/
def cross_entropy (ops : NumOps α) (lg : Fin N → Fin V → α) (tg : Fin N → Fin V) : α :=
  (∑ m, ceTerm ops (lg m) (tg m)) / (N : α)

/-- logits.view(B*T, C) and targets.view(B*T) (lines 165-166): row-major
flattening of the batch and time dimensions. -/
def flatten2 {γ : Type} (f : Fin B → Fin T → γ) : Fin (B * T) → γ :=
  fun m => f (Fin.divNat m) (Fin.modNat m)

/-- The loss branch of BigramLanguageModel.forward (lines 163-167). -/
def model_loss (ops : NumOps α) (p : BigramLanguageModel V D α)
    (idx : Fin B → Fin T → Fin V) (tg : Fin B → Fin T → Fin V) (hT : T ≤ block_size) : α :=
  cross_entropy ops (flatten2 (BigramLanguageModel.logits ops p idx hT)) (flatten2 tg)

/-- BigramLanguageModel.forward (lines 151-169): returns the logits together
with the flattened cross-entropy loss exactly when targets are supplied. -/
def BigramLanguageModel.forward (ops : NumOps α) (p : BigramLanguageModel V D α)
    (idx : Fin B → Fin T → Fin V) (targets : Option (Fin B → Fin T → Fin V))
    (hT : T ≤ block_size) : (Fin B → Fin T → Fin V → α) × Option α :=
  match targets with
  | none => (BigramLanguageModel.logits ops p idx hT, none)
  | some tg => (BigramLanguageModel.logits ops p idx hT, some (model_loss ops p idx tg hT))

/-- torch.multinomial(probs, num_samples=1) (line 183) modelled by inverse-CDF
sampling: given the uniform draw u of the generator, return the least index
whose cumulative probability exceeds u (the last index if none does). -/
def multinomial1 (hV : 0 < V) (probs : Fin V → α) (u : α) : Fin V :=
  ((List.finRange V).find?
      (fun i => decide (u < ∑ l ∈ Finset.univ.filter (fun l => l ≤ i), probs l))).getD
    ⟨V - 1, by omega⟩

/-- idx_cond = idx[:, -block_size:] (line 175): the last min(T, block_size)
tokens of each row. -/
def cropCtx (idx : Fin B → Fin T → Fin V) : Fin B → Fin (min T block_size) → Fin V :=
  fun b i => idx b ⟨T - min T block_size + i, by have hi := i.isLt; omega⟩

/-- One iteration of the generation loop (lines 174-183): crop the context to
the last block_size tokens, run the forward pass without targets, keep only the
final time step of the logits, softmax, and sample with the uniform draw u. -/
def nextToken (ops : NumOps α) (p : BigramLanguageModel V D α) (hV : 0 < V)
    (u : Fin B → α) (T : ℕ) (hT : 0 < T) (idx : Fin B → Fin T → Fin V) : Fin B → Fin V :=
  fun b =>
    multinomial1 hV
      (softmaxFun ops
        ((BigramLanguageModel.forward ops p (cropCtx idx) none (min_le_right T block_size)).1 b
          ⟨min T block_size - 1, by
            have hbs : 0 < block_size := by decide
            omega⟩))
      (u b)

/-- idx = torch.cat((idx, idx_next), dim=1) (line 185): append one sampled
token to each row. -/
def snocCtx (idx : Fin B → Fin T → Fin V) (new : Fin B → Fin V) :
    Fin B → Fin (T + 1) → Fin V :=
  fun b i => if h : (i : ℕ) < T then idx b ⟨i, h⟩ else new b

/-- Transport of a context along an equality of time lengths. -/
def castCtx {T₁ T₂ : ℕ} (h : T₁ = T₂) (idx : Fin B → Fin T₁ → Fin V) :
    Fin B → Fin T₂ → Fin V :=
  fun b i => idx b (Fin.cast h.symm i)

/-- BigramLanguageModel.generate (lines 171-186): append max_new_tokens sampled
tokens to the running context; rand k supplies the uniform draws that
torch.multinomial consumes at step k. The returned type records that the
result has exactly T + n time steps. -/
def BigramLanguageModel.generate (ops : NumOps α) (p : BigramLanguageModel V D α)
    (hV : 0 < V) :
    (rand : ℕ → Fin B → α) → (T : ℕ) → (hT : 0 < T) →
      (idx : Fin B → Fin T → Fin V) → (nTok : ℕ) → Fin B → Fin (T + nTok) → Fin V
  | _, _, _, idx, 0 => idx
  | rand, T, hT, idx, nTok + 1 =>
      castCtx (by omega)
        (BigramLanguageModel.generate ops p hV (fun k => rand (k + 1)) (T + 1) (by omega)
          (snocCtx idx (nextToken ops p hV (rand 0) T hT idx)) nTok)

/-- The split dispatch of get_batch (line 44): data = train_data if the split
name is exactly the string train, else val_data. -/
def chooseSplit (trainD valD : List (Fin V)) (split : String) : List (Fin V) :=
  if split = "train" then trainD else valD

/-- The window materialization of get_batch (lines 45-47) on a split that is
longer than block_size. torch.randint(len(data) - block_size, (batch_size,))
is modelled by reducing the b-th draw r b into [0, len - block_size); x stacks
data[i : i + block_size] and y stacks data[i + 1 : i + block_size + 1]. -/
def get_batchD (data : List (Fin V)) (h : block_size < data.length)
    (r : Fin batch_size → ℕ) :
    (Fin batch_size → Fin block_size → Fin V) × (Fin batch_size → Fin block_size → Fin V) :=
  (fun b t =>
    data.get ⟨r b % (data.length - block_size) + t, by
      have h1 : r b % (data.length - block_size) < data.length - block_size :=
        Nat.mod_lt _ (by omega)
      have h2 := t.isLt
      omega⟩,
   fun b t =>
    data.get ⟨r b % (data.length - block_size) + t + 1, by
      have h1 : r b % (data.length - block_size) < data.length - block_size :=
        Nat.mod_lt _ (by omega)
      have h2 := t.isLt
      omega⟩)

/-- get_batch (lines 42-49): select the split, then sample windows;
torch.randint raises when len(data) - block_size is not positive, so the call
fails exactly when the split length is at most block_size. -/
def get_batch (trainD valD : List (Fin V)) (split : String) (r : Fin batch_size → ℕ) :
    Option ((Fin batch_size → Fin block_size → Fin V) ×
      (Fin batch_size → Fin block_size → Fin V)) :=
  if h : block_size < (chooseSplit trainD valD split).length
  then some (get_batchD (chooseSplit trainD valD split) h r) else none

/-- The mutable state of the model object: its parameters together with the
training-mode flag toggled by model.train() and model.eval(). -/
structure MState (V D : ℕ) (α : Type) where
  params : BigramLanguageModel V D α
  training : Bool

/-- model.eval() (line 54): switch the module to evaluation mode. -/
def model_eval (s : MState V D α) : MState V D α := { s with training := false }

/-- model.train() (line 62): switch the module back to training mode. -/
def model_train (s : MState V D α) : MState V D α := { s with training := true }

/-- estimate_loss (lines 51-63): set evaluation mode, then for each of the two
splits average the losses of eval_iters independently sampled batches, and
finally restore training mode. rs names the randint draws of the k-th batch of
each split; no parameter is updated (the whole routine runs under
torch.no_grad and never calls the optimizer). -/
def estimate_loss (ops : NumOps α) (s : MState V D α) (trainD valD : List (Fin V))
    (hTr : block_size < trainD.length) (hVal : block_size < valD.length)
    (rs : String → ℕ → Fin batch_size → ℕ) : (String → α) × MState V D α :=
  let s1 := model_eval s
  let lossTr : ℕ → α := fun k =>
    let xy := get_batchD trainD hTr (rs "train" k)
    model_loss ops s1.params xy.1 xy.2 le_rfl
  let lossVal : ℕ → α := fun k =>
    let xy := get_batchD valD hVal (rs "val" k)
    model_loss ops s1.params xy.1 xy.2 le_rfl
  (fun split =>
      if split = "train" then (∑ k ∈ Finset.range eval_iters, lossTr k) / (eval_iters : α)
      else (∑ k ∈ Finset.range eval_iters, lossVal k) / (eval_iters : α),
    model_train s1)

/-- One iteration of the training loop (lines 194-208): when the iteration
number is divisible by eval_interval run estimate_loss (reporting its output),
then sample a train batch and apply one optimizer update. The optimizer step
(zero_grad, backward, step) belongs to the external autodiff engine and is
passed in as optStep. -/
def train_iter (ops : NumOps α)
    (optStep : BigramLanguageModel V D α → (Fin batch_size → Fin block_size → Fin V) →
      (Fin batch_size → Fin block_size → Fin V) → BigramLanguageModel V D α)
    (trainD valD : List (Fin V)) (hTr : block_size < trainD.length)
    (hVal : block_size < valD.length) (rs : ℕ → String → ℕ → Fin batch_size → ℕ)
    (rb : ℕ → Fin batch_size → ℕ) (i : ℕ) (s : MState V D α) :
    MState V D α × Option (String → α) :=
  let er : MState V D α × Option (String → α) :=
    if i % eval_interval = 0 then
      let lo := estimate_loss ops s trainD valD hTr hVal (rs i)
      (lo.2, some lo.1)
    else (s, none)
  let xy := get_batchD trainD hTr (rb i)
  ({ er.1 with params := optStep er.1.params xy.1 xy.2 }, er.2)

/-- The training loop for its first n iterations (lines 194-208), returning the
final state together with the log of (iteration, reported losses) pairs emitted
by the estimate_loss calls. -/
def training_loop (ops : NumOps α)
    (optStep : BigramLanguageModel V D α → (Fin batch_size → Fin block_size → Fin V) →
      (Fin batch_size → Fin block_size → Fin V) → BigramLanguageModel V D α)
    (trainD valD : List (Fin V)) (hTr : block_size < trainD.length)
    (hVal : block_size < valD.length) (rs : ℕ → String → ℕ → Fin batch_size → ℕ)
    (rb : ℕ → Fin batch_size → ℕ) :
    (nIter : ℕ) → MState V D α → MState V D α × List (ℕ × (String → α))
  | 0, s => (s, [])
  | nIter + 1, s =>
      ((train_iter ops optStep trainD valD hTr hVal rs rb nIter
          (training_loop ops optStep trainD valD hTr hVal rs rb nIter s).1).1,
        (training_loop ops optStep trainD valD hTr hVal rs rb nIter s).2 ++
          Option.elim
            (train_iter ops optStep trainD valD hTr hVal rs rb nIter
              (training_loop ops optStep trainD valD hTr hVal rs rb nIter s).1).2
            [] (fun o => [(nIter, o)]))

/-- head_size = n_embd // n_head in Block.__init__ (line 122): Python floor
division, performed unconditionally. -/
def head_size_init (e h : ℕ) : ℕ := e / h

/-- Modelled from the spec: the error-taxonomy section calls an embedding width
that is not evenly divisible by the head count a configuration error surfaced
immediately to the caller, so construction must fail on such a configuration
instead of adjusting the head width. -/
def block_init_spec (e h : ℕ) : Option ℕ :=
  if h ∣ e then some (e / h) else none

theorem eexp_bot (ops : NumOps α) : eexp ops ⊥ = 0 := rfl

theorem eexp_coe (ops : NumOps α) (a : α) : eexp ops (a : WithBot α) = ops.exp a := rfl

/-- C9 counterexample. The claim says a non-divisible embedding width is an
error surfaced immediately at construction with no silent adjustment of the
head width. At n_embd = 32, n_head = 5 the spec-modelled constructor fails,
but Block.__init__ just floors head_size to 6, silently adjusting the head
width since 5 * 6 is not 32. -/
theorem block_init_silently_floors :
    block_init_spec 32 5 = none ∧ head_size_init 32 5 = 6 ∧ 5 * head_size_init 32 5 ≠ 32 := by
  decide

/-- C9 amended: when the head count does not divide the embedding width,
Block.__init__ still succeeds with head_size = E / n floored; the configuration
error only surfaces on the first forward pass, where the width of the
concatenated head outputs does not match the input width of the output
projection, so the multi-head forward call fails. -/
theorem mha_forward_fails_on_indivisible {B T E n H : ℕ}
    (ops : NumOps ℝ) (hH : H = head_size_init E n) (hnd : ¬ n ∣ E)
    (m : MultiHeadAttention E n H ℝ) (x : Fin B → Fin T → Fin E → ℝ)
    (hT : T ≤ block_size) :
    MultiHeadAttention.forwardChk ops m x hT = none := by
  unfold MultiHeadAttention.forwardChk
  rw [dif_neg]
  intro hEq
  refine hnd ⟨E / n, ?_⟩
  rw [hH, head_size_init] at hEq
  exact hEq.symm

/-- Witness for the C9 amended theorem at the concrete configuration
n_embd = 32, n_head = 5 of the counterexample. -/
theorem mha_forward_fails_on_indivisible_witness :
    MultiHeadAttention.forwardChk (⟨Real.exp, Real.log, Real.sqrt⟩ : NumOps ℝ)
      (⟨fun _ => ⟨fun _ _ => 0, fun _ _ => 0, fun _ _ => 0⟩, ⟨fun _ _ => 0, fun _ => 0⟩⟩ :
        MultiHeadAttention 32 5 (head_size_init 32 5) ℝ)
      (fun (_ : Fin 1) (_ : Fin 1) (_ : Fin 32) => (0 : ℝ)) (by decide) = none :=
  mha_forward_fails_on_indivisible ⟨Real.exp, Real.log, Real.sqrt⟩ rfl (by decide) _ _ (by decide)

/-- C10: only the exact split name train selects the training split; every
other string, the name val included, selects the validation split, and no
split name makes get_batch fail by itself (it can only fail through the
length test). -/
theorem get_batch_split_selection {V : ℕ} (trainD valD : List (Fin V))
    (r : Fin batch_size → ℕ) :
    (∀ split : String, split ≠ "train" →
      chooseSplit trainD valD split = valD ∧
      get_batch trainD valD split r = get_batch trainD valD "val" r) ∧
    chooseSplit trainD valD "train" = trainD ∧
    ∀ split : String,
      (get_batch trainD valD split r).isSome =
        decide (block_size < (chooseSplit trainD valD split).length) := by
  refine ⟨fun split hs => ?_, rfl, fun split => ?_⟩
  · have hv : chooseSplit trainD valD split = valD := by
      unfold chooseSplit
      rw [if_neg hs]
    constructor
    · exact hv
    · unfold get_batch
      have hv2 : chooseSplit trainD valD "val" = valD := by
        unfold chooseSplit
        rw [if_neg (by decide)]
      simp only [hv, hv2]
  · unfold get_batch
    by_cases h : block_size < (chooseSplit trainD valD split).length
    · rw [dif_pos h]
      simp [h]
    · rw [dif_neg h]
      simp [h]

/-- Witness for C10 at a concrete misspelt split name. -/
theorem get_batch_split_selection_witness :
    chooseSplit [(0 : Fin 1)] [] "vall" = [] ∧
      get_batch [(0 : Fin 1)] [] "vall" (fun _ => 0) =
        get_batch [(0 : Fin 1)] [] "val" (fun _ => 0) :=
  (get_batch_split_selection [(0 : Fin 1)] [] (fun _ => 0)).1 "vall" (by decide)

/-- C3: on a split of length L, get_batch fails when L ≤ block_size; otherwise
it returns windows built from start offsets in [0, L - block_size), the input
row being the sub-sequence [i, i + block_size) of the split and the target row
its right shift y t = split[i + t + 1]. -/
theorem get_batch_spec {V : ℕ} (trainD valD : List (Fin V)) (split : String)
    (r : Fin batch_size → ℕ) :
    (¬ block_size < (chooseSplit trainD valD split).length →
      get_batch trainD valD split r = none) ∧
    ∀ h : block_size < (chooseSplit trainD valD split).length,
      get_batch trainD valD split r =
        some (get_batchD (chooseSplit trainD valD split) h r) ∧
      ∀ b : Fin batch_size,
        ∃ i : ℕ, i < (chooseSplit trainD valD split).length - block_size ∧
          ∀ t : Fin block_size,
            (chooseSplit trainD valD split).get? (i + t) =
              some ((get_batchD (chooseSplit trainD valD split) h r).1 b t) ∧
            (chooseSplit trainD valD split).get? (i + t + 1) =
              some ((get_batchD (chooseSplit trainD valD split) h r).2 b t) := by
  constructor
  · intro h
    unfold get_batch
    rw [dif_neg h]
  · intro h
    constructor
    · unfold get_batch
      rw [dif_pos h]
    · intro b
      refine ⟨r b % ((chooseSplit trainD valD split).length - block_size),
        Nat.mod_lt _ (by omega), fun t => ?_⟩
      constructor
      · rw [List.get?_eq_get]
        rfl
      · rw [List.get?_eq_get]
        rfl

/-- Witness for C3 on a concrete split of length 9 with window length 8. -/
theorem get_batch_spec_witness :
    (¬ block_size < (chooseSplit (List.replicate 9 (0 : Fin 1)) [] "train").length →
      get_batch (List.replicate 9 (0 : Fin 1)) [] "train" (fun _ => 0) = none) ∧
    ∀ h : block_size < (chooseSplit (List.replicate 9 (0 : Fin 1)) [] "train").length,
      get_batch (List.replicate 9 (0 : Fin 1)) [] "train" (fun _ => 0) =
        some (get_batchD (chooseSplit (List.replicate 9 (0 : Fin 1)) [] "train") h
          (fun _ => 0)) ∧
      ∀ b : Fin batch_size,
        ∃ i : ℕ,
          i < (chooseSplit (List.replicate 9 (0 : Fin 1)) [] "train").length - block_size ∧
          ∀ t : Fin block_size,
            (chooseSplit (List.replicate 9 (0 : Fin 1)) [] "train").get? (i + t) =
              some ((get_batchD (chooseSplit (List.replicate 9 (0 : Fin 1)) [] "train") h
                (fun _ => 0)).1 b t) ∧
            (chooseSplit (List.replicate 9 (0 : Fin 1)) [] "train").get? (i + t + 1) =
              some ((get_batchD (chooseSplit (List.replicate 9 (0 : Fin 1)) [] "train") h
                (fun _ => 0)).2 b t) :=
  get_batch_spec (List.replicate 9 (0 : Fin 1)) [] "train" (fun _ => 0)

/-- C5: a Block computes exactly the pre-normalization residual composition
x1 = x + sa(ln1(x)) followed by x1 + ffwd(ln2(x1)): each layer norm is applied
to the running activation before its sub-layer and each sub-layer output is
added to that sub-layer's input. -/
theorem Block_forward_prenorm {B T E : ℕ} (ops : NumOps ℝ) (bk : Block E ℝ)
    (x : Fin B → Fin T → Fin E → ℝ) (hT : T ≤ block_size) (b : Fin B) (t : Fin T)
    (d : Fin E) :
    Block.forward ops bk x hT b t d =
      (fun x1 : Fin B → Fin T → Fin E → ℝ =>
          x1 b t d + FeedForward.forward bk.ffwd (layerNorm ops bk.ln2 (x1 b t)) d)
        (fun b' t' d' =>
          x b' t' d' +
            MultiHeadAttention.forward ops bk.sa bk.hw
              (fun b'' t'' => layerNorm ops bk.ln1 (x b'' t'')) hT b' t' d') := rfl

/-- Witness for C5 at a concrete one-head block of width one. -/
theorem Block_forward_prenorm_witness :
    Block.forward (⟨Real.exp, Real.log, Real.sqrt⟩ : NumOps ℝ)
        (⟨1, ⟨fun _ => ⟨fun _ _ => 0, fun _ _ => 0, fun _ _ => 0⟩, ⟨fun _ _ => 0, fun _ => 0⟩⟩,
          ⟨⟨fun _ _ => 0, fun _ => 0⟩, ⟨fun _ _ => 0, fun _ => 0⟩⟩,
          ⟨fun _ => 1, fun _ => 0⟩, ⟨fun _ => 1, fun _ => 0⟩, by decide⟩ : Block 1 ℝ)
        (fun (_ : Fin 1) (_ : Fin 1) (_ : Fin 1) => (0 : ℝ)) (by decide)
        0 0 0 =
      (fun x1 : Fin 1 → Fin 1 → Fin 1 → ℝ =>
          x1 0 0 0 +
            FeedForward.forward
              (⟨⟨fun _ _ => 0, fun _ => 0⟩, ⟨fun _ _ => 0, fun _ => 0⟩⟩ : FeedForward 1 ℝ)
              (layerNorm (⟨Real.exp, Real.log, Real.sqrt⟩ : NumOps ℝ)
                (⟨fun _ => 1, fun _ => 0⟩ : LayerNormP 1 ℝ) (x1 0 0)) 0)
        (fun b' t' d' =>
          (fun (_ : Fin 1) (_ : Fin 1) (_ : Fin 1) => (0 : ℝ)) b' t' d' +
            MultiHeadAttention.forward (⟨Real.exp, Real.log, Real.sqrt⟩ : NumOps ℝ)
              (⟨fun _ => ⟨fun _ _ => 0, fun _ _ => 0, fun _ _ => 0⟩,
                ⟨fun _ _ => 0, fun _ => 0⟩⟩ : MultiHeadAttention 1 1 (1 / 1) ℝ)
              (by decide)
              (fun b'' t'' =>
                layerNorm (⟨Real.exp, Real.log, Real.sqrt⟩ : NumOps ℝ)
                  (⟨fun _ => 1, fun _ => 0⟩ : LayerNormP 1 ℝ)
                  ((fun (_ : Fin 1) (_ : Fin 1) (_ : Fin 1) => (0 : ℝ)) b'' t''))
              (by decide) b' t' d') :=
  Block_forward_prenorm ⟨Real.exp, Real.log, Real.sqrt⟩ _ _ (by decide) 0 0 0

/-- C6: with D divisible by the head count and head_size = D / n as Block
builds it, the multi-head forward pass succeeds, its output has the shape of
the input (recorded in the returned type), it is the output projection of the
head concatenation, and the concatenation places head hi at feature offsets
hi * head_size + c in the fixed order of the module list. -/
theorem MultiHeadAttention_shape {B T E n : ℕ} (ops : NumOps ℝ) (hn : 0 < n)
    (hd : n ∣ E) (m : MultiHeadAttention E n (E / n) ℝ)
    (x : Fin B → Fin T → Fin E → ℝ) (hT : T ≤ block_size) :
    ∃ y : Fin B → Fin T → Fin E → ℝ,
      MultiHeadAttention.forwardChk ops m x hT = some y ∧
      (∀ (b : Fin B) (t : Fin T) (o : Fin E),
        y b t o =
          LinearP.apply m.proj
            (fun i =>
              MultiHeadAttention.cat ops m x hT b t
                (Fin.cast (Nat.mul_div_cancel' hd).symm i)) o) ∧
      (∀ (b : Fin B) (t : Fin T) (hi : Fin n) (c : Fin (E / n)),
        MultiHeadAttention.cat ops m x hT b t
            ⟨(hi : ℕ) * (E / n) + (c : ℕ), by
              have h1 := hi.isLt
              have h2 := c.isLt
              have h3 : ((hi : ℕ) + 1) * (E / n) ≤ n * (E / n) :=
                Nat.mul_le_mul_right _ (Nat.succ_le_of_lt h1)
              have h4 : (hi : ℕ) * (E / n) + (c : ℕ) < ((hi : ℕ) + 1) * (E / n) := by
                rw [Nat.succ_mul]
                omega
              omega⟩ =
          Head.forward ops (m.heads hi) x hT b t c) := by
  refine ⟨MultiHeadAttention.forward ops m (Nat.mul_div_cancel' hd) x hT, ?_,
    fun b t o => rfl, fun b t hi c => ?_⟩
  · unfold MultiHeadAttention.forwardChk
    rw [dif_pos (Nat.mul_div_cancel' hd)]
  · have hhs : 0 < E / n := Nat.lt_of_le_of_lt (Nat.zero_le _) c.isLt
    have hdiv : ((hi : ℕ) * (E / n) + (c : ℕ)) / (E / n) = (hi : ℕ) := by
      rw [Nat.add_comm, Nat.mul_comm, Nat.add_mul_div_left _ _ hhs,
        Nat.div_eq_of_lt c.isLt, Nat.zero_add]
    have hmod : ((hi : ℕ) * (E / n) + (c : ℕ)) % (E / n) = (c : ℕ) := by
      rw [Nat.add_comm, Nat.mul_comm, Nat.add_mul_mod_self_left,
        Nat.mod_eq_of_lt c.isLt]
    unfold MultiHeadAttention.cat
    have e1 : (⟨((hi : ℕ) * (E / n) + (c : ℕ)) / (E / n), by omega⟩ : Fin n) = hi :=
      Fin.ext hdiv
    have e2 : (⟨((hi : ℕ) * (E / n) + (c : ℕ)) % (E / n), by omega⟩ : Fin (E / n)) = c :=
      Fin.ext hmod
    rw [show (m.heads ⟨((hi : ℕ) * (E / n) + (c : ℕ)) / (E / n), by omega⟩) = m.heads hi from
      congrArg m.heads e1]
    exact congrArg _ e2

/-- Witness for C6 with two heads of size two over width four. -/
theorem MultiHeadAttention_shape_witness :
    ∃ y : Fin 1 → Fin 1 → Fin 4 → ℝ,
      MultiHeadAttention.forwardChk (⟨Real.exp, Real.log, Real.sqrt⟩ : NumOps ℝ)
          (⟨fun _ => ⟨fun _ _ => 0, fun _ _ => 0, fun _ _ => 0⟩,
            ⟨fun _ _ => 0, fun _ => 0⟩⟩ : MultiHeadAttention 4 2 (4 / 2) ℝ)
          (fun _ _ _ => (0 : ℝ)) (by decide) = some y ∧
      (∀ (b : Fin 1) (t : Fin 1) (o : Fin 4),
        y b t o =
          LinearP.apply
            (⟨fun _ _ => 0, fun _ => 0⟩ : LinearP 4 4 ℝ)
            (fun i =>
              MultiHeadAttention.cat (⟨Real.exp, Real.log, Real.sqrt⟩ : NumOps ℝ)
                (⟨fun _ => ⟨fun _ _ => 0, fun _ _ => 0, fun _ _ => 0⟩,
                  ⟨fun _ _ => 0, fun _ => 0⟩⟩ : MultiHeadAttention 4 2 (4 / 2) ℝ)
                (fun _ _ _ => (0 : ℝ)) (by decide) b t
                (Fin.cast (Nat.mul_div_cancel' (by decide : (2 : ℕ) ∣ 4)).symm i)) o) ∧
      (∀ (b : Fin 1) (t : Fin 1) (hi : Fin 2) (c : Fin (4 / 2)),
        MultiHeadAttention.cat (⟨Real.exp, Real.log, Real.sqrt⟩ : NumOps ℝ)
            (⟨fun _ => ⟨fun _ _ => 0, fun _ _ => 0, fun _ _ => 0⟩,
              ⟨fun _ _ => 0, fun _ => 0⟩⟩ : MultiHeadAttention 4 2 (4 / 2) ℝ)
            (fun _ _ _ => (0 : ℝ)) (by decide) b t
            ⟨(hi : ℕ) * (4 / 2) + (c : ℕ), by
              have h1 := hi.isLt
              have h2 := c.isLt
              omega⟩ =
          Head.forward (⟨Real.exp, Real.log, Real.sqrt⟩ : NumOps ℝ)
            ((⟨fun _ => ⟨fun _ _ => 0, fun _ _ => 0, fun _ _ => 0⟩,
              ⟨fun _ _ => 0, fun _ => 0⟩⟩ : MultiHeadAttention 4 2 (4 / 2) ℝ).heads hi)
            (fun _ _ _ => (0 : ℝ)) (by decide) b t c) :=
  MultiHeadAttention_shape ⟨Real.exp, Real.log, Real.sqrt⟩ (by decide) (by decide) _ _
    (by decide)

/-- Row-major reindexing: a sum over the flattened Fin (B * T) equals the
double sum over batch and time. -/
theorem sum_flatten2 {B T : ℕ} (f : Fin B → Fin T → ℝ) :
    (∑ m : Fin (B * T), f (Fin.divNat m) (Fin.modNat m)) = ∑ b, ∑ t, f b t := by
  have h1 : ∀ p : Fin B × Fin T, Fin.divNat (finProdFinEquiv p) = p.1 := by
    intro p
    have h := finProdFinEquiv.symm_apply_apply p
    rw [finProdFinEquiv_symm_apply] at h
    exact congrArg Prod.fst h
  have h2 : ∀ p : Fin B × Fin T, Fin.modNat (finProdFinEquiv p) = p.2 := by
    intro p
    have h := finProdFinEquiv.symm_apply_apply p
    rw [finProdFinEquiv_symm_apply] at h
    exact congrArg Prod.snd h
  calc
    (∑ m : Fin (B * T), f (Fin.divNat m) (Fin.modNat m)) =
        ∑ p : Fin B × Fin T, f (Fin.divNat (finProdFinEquiv p)) (Fin.modNat (finProdFinEquiv p)) :=
      (Equiv.sum_comp finProdFinEquiv _).symm
    _ = ∑ p : Fin B × Fin T, f p.1 p.2 :=
      Finset.sum_congr rfl (fun p _ => by rw [h1 p, h2 p])
    _ = ∑ b, ∑ t, f b t := Fintype.sum_prod_type _

/-- C4: the forward pass returns (logits, none) when targets are omitted, and
with targets it returns the logits together with the average cross-entropy
over all B * T flattened (prediction, target) pairs. -/
theorem forward_loss_spec (ops : NumOps ℝ) {B T V D : ℕ}
    (p : BigramLanguageModel V D ℝ) (idx : Fin B → Fin T → Fin V)
    (hT : T ≤ block_size) :
    BigramLanguageModel.forward ops p idx none hT =
      (BigramLanguageModel.logits ops p idx hT, none) ∧
    ∀ tg : Fin B → Fin T → Fin V,
      BigramLanguageModel.forward ops p idx (some tg) hT =
        (BigramLanguageModel.logits ops p idx hT,
          some
            ((∑ b, ∑ t,
                ceTerm ops (BigramLanguageModel.logits ops p idx hT b t) (tg b t)) /
              ((B : ℝ) * (T : ℝ)))) := by
  refine ⟨rfl, fun tg => ?_⟩
  have hml : model_loss ops p idx tg hT =
      (∑ b, ∑ t, ceTerm ops (BigramLanguageModel.logits ops p idx hT b t) (tg b t)) /
        ((B : ℝ) * (T : ℝ)) := by
    unfold model_loss cross_entropy
    rw [Nat.cast_mul]
    congr 1
    exact sum_flatten2 (fun b t => ceTerm ops (BigramLanguageModel.logits ops p idx hT b t) (tg b t))
  show (BigramLanguageModel.logits ops p idx hT, some (model_loss ops p idx tg hT)) = _
  rw [hml]

/-- Witness for C4: at a concrete model the no-targets call returns the logits
paired with an absent loss. -/
theorem forward_loss_spec_witness :
    BigramLanguageModel.forward (⟨Real.exp, Real.log, Real.sqrt⟩ : NumOps ℝ)
        (⟨fun _ _ => 0, fun _ _ => 0, [], ⟨fun _ => 1, fun _ => 0⟩,
          ⟨fun _ _ => 0, fun _ => 0⟩⟩ : BigramLanguageModel 1 1 ℝ)
        (fun (_ : Fin 1) (_ : Fin 1) => (0 : Fin 1)) none (by decide) =
      (BigramLanguageModel.logits (⟨Real.exp, Real.log, Real.sqrt⟩ : NumOps ℝ)
        (⟨fun _ _ => 0, fun _ _ => 0, [], ⟨fun _ => 1, fun _ => 0⟩,
          ⟨fun _ _ => 0, fun _ => 0⟩⟩ : BigramLanguageModel 1 1 ℝ)
        (fun _ _ => 0) (by decide), none) :=
  (forward_loss_spec ⟨Real.exp, Real.log, Real.sqrt⟩ _ _ (by decide)).1

/-- C7: after the softmax of line 82 each attention row is a probability
distribution over key positions: all weights are non-negative and every query
row sums to one. Stated at the real exponential. -/
theorem Head_wei_prob {B T E H : ℕ} (p : Head E H ℝ) (x : Fin B → Fin T → Fin E → ℝ)
    (hT : T ≤ block_size) (b : Fin B) (t : Fin T) :
    (∀ j, 0 ≤ Head.wei (⟨Real.exp, Real.log, Real.sqrt⟩ : NumOps ℝ) p x hT b t j) ∧
    ∑ j, Head.wei (⟨Real.exp, Real.log, Real.sqrt⟩ : NumOps ℝ) p x hT b t j = 1 := by
  have hnn : ∀ j, 0 ≤ eexp (⟨Real.exp, Real.log, Real.sqrt⟩ : NumOps ℝ)
      (Head.masked ⟨Real.exp, Real.log, Real.sqrt⟩ p x hT b t j) := by
    intro j
    unfold Head.masked
    by_cases hc : trilSlice (α := ℝ) T hT t j = 0
    · rw [if_pos hc, eexp_bot]
    · rw [if_neg hc, eexp_coe]
      exact le_of_lt (Real.exp_pos _)
  have hpos : 0 < ∑ l, eexp (⟨Real.exp, Real.log, Real.sqrt⟩ : NumOps ℝ)
      (Head.masked ⟨Real.exp, Real.log, Real.sqrt⟩ p x hT b t l) := by
    apply Finset.sum_pos'
    · intro i _
      exact hnn i
    · refine ⟨t, Finset.mem_univ t, ?_⟩
      have hmask : trilSlice (α := ℝ) T hT t t ≠ 0 := by
        unfold trilSlice tril
        simp
      unfold Head.masked
      rw [if_neg hmask, eexp_coe]
      exact Real.exp_pos _
  constructor
  · intro j
    unfold Head.wei
    exact div_nonneg (hnn j) (le_of_lt hpos)
  · unfold Head.wei
    rw [← Finset.sum_div]
    exact div_self (ne_of_gt hpos)

/-- Witness for C7: at a concrete zero head over one position the attention
row sums to one. -/
theorem Head_wei_prob_witness :
    ∑ j, Head.wei (⟨Real.exp, Real.log, Real.sqrt⟩ : NumOps ℝ)
        (⟨fun _ _ => 0, fun _ _ => 0, fun _ _ => 0⟩ : Head 1 1 ℝ)
        (fun (_ : Fin 1) (_ : Fin 1) (_ : Fin 1) => (0 : ℝ)) (by decide) 0 0 j = 1 :=
  (Head_wei_prob ⟨fun _ _ => 0, fun _ _ => 0, fun _ _ => 0⟩ (fun _ _ _ => 0)
    (by decide) 0 0).2

/-- C1: the Head slices the fixed (block_size, block_size) causal mask to its
first T by T entries, whose zeros are exactly the strictly-future pairs; every
strictly-future key position receives attention weight exactly zero; and the
output at position t is unchanged under any modification of the input at
positions strictly greater than t (two-run formulation: the runs on x and on
any x' that agrees with x at positions at most t coincide at position t). -/
theorem Head_forward_causal {B T E H : ℕ} (ops : NumOps ℝ) (p : Head E H ℝ)
    (x x' : Fin B → Fin T → Fin E → ℝ) (hT : T ≤ block_size) (b : Fin B) (t : Fin T)
    (hagree : ∀ (b' : Fin B) (s : Fin T) (d : Fin E), (s : ℕ) ≤ (t : ℕ) →
      x b' s d = x' b' s d) :
    (∀ i j : Fin T,
      trilSlice (α := ℝ) T hT i j =
          tril block_size ⟨i, lt_of_lt_of_le i.isLt hT⟩ ⟨j, lt_of_lt_of_le j.isLt hT⟩ ∧
        (trilSlice (α := ℝ) T hT i j = 0 ↔ (i : ℕ) < (j : ℕ))) ∧
    (∀ j : Fin T, (t : ℕ) < (j : ℕ) → Head.wei ops p x hT b t j = 0) ∧
    (∀ hh : Fin H, Head.forward ops p x hT b t hh = Head.forward ops p x' hT b t hh) := by
  have hmaskzero : ∀ i j : Fin T, trilSlice (α := ℝ) T hT i j = 0 ↔ (i : ℕ) < (j : ℕ) := by
    intro i j
    unfold trilSlice tril
    by_cases hc : (j : ℕ) ≤ (i : ℕ)
    · rw [if_pos hc]
      exact iff_of_false one_ne_zero (by omega)
    · rw [if_neg hc]
      exact iff_of_true rfl (by omega)
  have hzero : ∀ (xx : Fin B → Fin T → Fin E → ℝ) (j : Fin T), (t : ℕ) < (j : ℕ) →
      Head.wei ops p xx hT b t j = 0 := by
    intro xx j hj
    have hm : Head.masked ops p xx hT b t j = ⊥ := by
      unfold Head.masked
      rw [if_pos ((hmaskzero t j).2 hj)]
    unfold Head.wei
    rw [hm, eexp_bot, zero_div]
  have hx_le : ∀ (j : Fin T), (j : ℕ) ≤ (t : ℕ) → ∀ d, x b j d = x' b j d :=
    fun j hj d => hagree b j d hj
  have hm_eq : ∀ j : Fin T,
      Head.masked ops p x hT b t j = Head.masked ops p x' hT b t j := by
    intro j
    unfold Head.masked
    by_cases hc : trilSlice (α := ℝ) T hT t j = 0
    · rw [if_pos hc, if_pos hc]
    · rw [if_neg hc, if_neg hc]
      have hjt : (j : ℕ) ≤ (t : ℕ) := by
        have hnlt := mt (hmaskzero t j).2 hc
        omega
      have hsc : Head.scores ops p x b t j = Head.scores ops p x' b t j := by
        unfold Head.scores Head.q Head.k
        refine congrArg (fun z => z * (ops.sqrt (H : ℝ))⁻¹) ?_
        refine Finset.sum_congr rfl (fun hh _ => ?_)
        refine congrArg₂ (fun z w => z * w) ?_ ?_
        · exact Finset.sum_congr rfl (fun d _ => by
            rw [hagree b t d (le_refl _)])
        · exact Finset.sum_congr rfl (fun d _ => by rw [hx_le j hjt d])
      rw [hsc]
  have hwei_eq : ∀ j : Fin T,
      Head.wei ops p x hT b t j = Head.wei ops p x' hT b t j := by
    intro j
    unfold Head.wei
    have hsum : (∑ l, eexp ops (Head.masked ops p x hT b t l)) =
        ∑ l, eexp ops (Head.masked ops p x' hT b t l) :=
      Finset.sum_congr rfl (fun l _ => by rw [hm_eq l])
    rw [hm_eq j, hsum]
  refine ⟨fun i j => ⟨rfl, hmaskzero i j⟩, hzero x, fun hh => ?_⟩
  unfold Head.forward
  refine Finset.sum_congr rfl (fun j _ => ?_)
  by_cases hj : (t : ℕ) < (j : ℕ)
  · rw [hzero x j hj, hzero x' j hj, zero_mul, zero_mul]
  · have hjt : (j : ℕ) ≤ (t : ℕ) := by omega
    rw [hwei_eq j]
    refine congrArg (fun z => Head.wei ops p x' hT b t j * z) ?_
    unfold Head.vv
    exact Finset.sum_congr rfl (fun d _ => by rw [hx_le j hjt d])

/-- Witness for C1: with two positions, the strictly-future position receives
weight zero and the two-run outputs agree at position zero when the runs share
position zero. -/
theorem Head_forward_causal_witness :
    Head.wei (⟨Real.exp, Real.log, Real.sqrt⟩ : NumOps ℝ)
        (⟨fun _ _ => 0, fun _ _ => 0, fun _ _ => 0⟩ : Head 1 1 ℝ)
        (fun (_ : Fin 1) (_ : Fin 2) (_ : Fin 1) => (0 : ℝ)) (by decide) 0 0 1 = 0 :=
  (Head_forward_causal ⟨Real.exp, Real.log, Real.sqrt⟩
      ⟨fun _ _ => 0, fun _ _ => 0, fun _ _ => 0⟩
      (fun _ _ _ => 0)
      (fun (_ : Fin 1) (s : Fin 2) (_ : Fin 1) => if (s : ℕ) = 0 then (0 : ℝ) else 1)
      (by decide) 0 0
      (fun _ s _ hs => by
        have hs0 : (s : ℕ) = 0 := by omega
        show (0 : ℝ) = if (s : ℕ) = 0 then (0 : ℝ) else 1
        rw [if_pos hs0])).2.1 1 (by decide)

theorem castCtx_mk {B V T₁ T₂ : ℕ} (h : T₁ = T₂) (f : Fin B → Fin T₁ → Fin V)
    (b : Fin B) (j : ℕ) (hj₂ : j < T₂) (hj₁ : j < T₁) :
    castCtx h f b ⟨j, hj₂⟩ = f b ⟨j, hj₁⟩ := by
  subst h
  rfl

theorem nextToken_cast (ops : NumOps α) {B V D : ℕ} (p : BigramLanguageModel V D α)
    (hV : 0 < V) (u : Fin B → α) {T₁ T₂ : ℕ} (h : T₁ = T₂) (hT₁ : 0 < T₁) (hT₂ : 0 < T₂)
    (idx : Fin B → Fin T₁ → Fin V) (b : Fin B) :
    nextToken ops p hV u T₂ hT₂ (castCtx h idx) b = nextToken ops p hV u T₁ hT₁ idx b := by
  subst h
  rfl

theorem generate_zero (ops : NumOps α) {B V D : ℕ} (p : BigramLanguageModel V D α)
    (hV : 0 < V) (rand : ℕ → Fin B → α) (T : ℕ) (hT : 0 < T)
    (idx : Fin B → Fin T → Fin V) :
    BigramLanguageModel.generate ops p hV rand T hT idx 0 = idx := rfl

theorem generate_succ (ops : NumOps α) {B V D : ℕ} (p : BigramLanguageModel V D α)
    (hV : 0 < V) (rand : ℕ → Fin B → α) (T : ℕ) (hT : 0 < T)
    (idx : Fin B → Fin T → Fin V) (m : ℕ) :
    BigramLanguageModel.generate ops p hV rand T hT idx (m + 1) =
      castCtx (by omega)
        (BigramLanguageModel.generate ops p hV (fun k => rand (k + 1)) (T + 1) (by omega)
          (snocCtx idx (nextToken ops p hV (rand 0) T hT idx)) m) := rfl

/-- All positions below the seed length keep their original token through
generation. -/
theorem generate_keep (ops : NumOps α) {B V D : ℕ} (p : BigramLanguageModel V D α)
    (hV : 0 < V) :
    ∀ (nTok : ℕ) (rand : ℕ → Fin B → α) (T : ℕ) (hT : 0 < T)
      (idx : Fin B → Fin T → Fin V) (b : Fin B) (j : ℕ) (hj : j < T + nTok)
      (hjT : j < T),
      BigramLanguageModel.generate ops p hV rand T hT idx nTok b ⟨j, hj⟩ =
        idx b ⟨j, hjT⟩ := by
  intro nTok
  induction nTok with
  | zero =>
    intro rand T hT idx b j hj hjT
    rfl
  | succ m ih =>
    intro rand T hT idx b j hj hjT
    rw [generate_succ]
    have h1 := ih (fun k => rand (k + 1)) (T + 1) (by omega)
      (snocCtx idx (nextToken ops p hV (rand 0) T hT idx)) b j (by omega) (by omega)
    have h2 : snocCtx idx (nextToken ops p hV (rand 0) T hT idx) b ⟨j, by omega⟩ =
        idx b ⟨j, hjT⟩ := by
      unfold snocCtx
      rw [dif_pos hjT]
    exact (castCtx_mk _ _ b j hj (by omega)).trans (h1.trans h2)

/-- The token appended at step k is the sampled next token of the length
T + k context produced by the first k steps. -/
theorem generate_step_tok (ops : NumOps α) {B V D : ℕ} (p : BigramLanguageModel V D α)
    (hV : 0 < V) :
    ∀ (nTok k : ℕ) (hk : k < nTok) (rand : ℕ → Fin B → α) (T : ℕ) (hT : 0 < T)
      (idx : Fin B → Fin T → Fin V) (b : Fin B) (j : ℕ) (hjk : j = T + k)
      (hj : j < T + nTok),
      BigramLanguageModel.generate ops p hV rand T hT idx nTok b ⟨j, hj⟩ =
        nextToken ops p hV (rand k) (T + k) (by omega)
          (BigramLanguageModel.generate ops p hV rand T hT idx k) b := by
  intro nTok
  induction nTok with
  | zero =>
    intro k hk
    exact absurd hk (Nat.not_lt_zero k)
  | succ m ih =>
    intro k hk rand T hT idx b j hjk hj
    rw [generate_succ]
    cases k with
    | zero =>
      have h1 := generate_keep ops p hV m (fun k => rand (k + 1)) (T + 1) (by omega)
        (snocCtx idx (nextToken ops p hV (rand 0) T hT idx)) b j (by omega) (by omega)
      have h2 : snocCtx idx (nextToken ops p hV (rand 0) T hT idx) b ⟨j, by omega⟩ =
          nextToken ops p hV (rand 0) T hT idx b := by
        unfold snocCtx
        rw [dif_neg (show ¬ j < T by omega)]
      exact (castCtx_mk _ _ b j hj (by omega)).trans (h1.trans h2)
    | succ k' =>
      have hk' : k' < m := by omega
      have h1 := ih k' hk' (fun k => rand (k + 1)) (T + 1) (by omega)
        (snocCtx idx (nextToken ops p hV (rand 0) T hT idx)) b j (by omega) (by omega)
      refine (castCtx_mk _ _ b j hj (by omega)).trans (h1.trans ?_)
      exact (nextToken_cast ops p hV (rand (k' + 1)) (by omega : (T + 1) + k' = T + (k' + 1))
        (by omega) (by omega) _ b).symm

/-- C2: generation preserves the seed unchanged in the first T₀ columns of the
returned (B, T₀ + nTok) result (the shape is recorded in the returned type),
and the token appended at step k is sampled by inverse-CDF multinomial from
the softmax of the final-time-step logits of a forward pass without targets,
conditioned on the last min(T₀ + k, block_size) tokens of the running context
(all of which is the content of nextToken). -/
theorem generate_spec (ops : NumOps ℝ) {B V D : ℕ} (p : BigramLanguageModel V D ℝ)
    (hV : 0 < V) (rand : ℕ → Fin B → ℝ) (T₀ : ℕ) (hT : 0 < T₀)
    (idx : Fin B → Fin T₀ → Fin V) (nTok : ℕ) :
    (∀ (b : Fin B) (j : Fin T₀),
      BigramLanguageModel.generate ops p hV rand T₀ hT idx nTok b
        (Fin.castLE (Nat.le_add_right T₀ nTok) j) = idx b j) ∧
    (∀ (k : ℕ) (hk : k < nTok) (b : Fin B),
      BigramLanguageModel.generate ops p hV rand T₀ hT idx nTok b ⟨T₀ + k, by omega⟩ =
        nextToken ops p hV (rand k) (T₀ + k) (by omega)
          (BigramLanguageModel.generate ops p hV rand T₀ hT idx k) b) := by
  constructor
  · intro b j
    exact generate_keep ops p hV nTok rand T₀ hT idx b (j : ℕ) (by omega) j.isLt
  · intro k hk b
    exact generate_step_tok ops p hV nTok k hk rand T₀ hT idx b (T₀ + k) rfl (by omega)

/-- Witness for C2: a one-token seed is preserved through one generation step
of a concrete model. -/
theorem generate_spec_witness :
    BigramLanguageModel.generate (⟨Real.exp, Real.log, Real.sqrt⟩ : NumOps ℝ)
        (⟨fun _ _ => 0, fun _ _ => 0, [], ⟨fun _ => 1, fun _ => 0⟩,
          ⟨fun _ _ => 0, fun _ => 0⟩⟩ : BigramLanguageModel 1 1 ℝ)
        (by decide) (fun _ _ => 0) 1 (by decide)
        (fun (_ : Fin 1) (_ : Fin 1) => (0 : Fin 1)) 1 0
        (Fin.castLE (Nat.le_add_right 1 1) 0) = 0 :=
  (generate_spec ⟨Real.exp, Real.log, Real.sqrt⟩
      (⟨fun _ _ => 0, fun _ _ => 0, [], ⟨fun _ => 1, fun _ => 0⟩,
        ⟨fun _ _ => 0, fun _ => 0⟩⟩ : BigramLanguageModel 1 1 ℝ)
      (by decide) (fun _ _ => 0) 1 (by decide)
      (fun _ _ => (0 : Fin 1)) 1).1 0 0

/-- The reporting component of a training iteration: a losses record appears
exactly when the iteration number is divisible by eval_interval. -/
theorem train_iter_report (ops : NumOps α) {V D : ℕ} (trainD valD : List (Fin V))
    (hTr : block_size < trainD.length) (hVal : block_size < valD.length)
    (optStep : BigramLanguageModel V D α → (Fin batch_size → Fin block_size → Fin V) →
      (Fin batch_size → Fin block_size → Fin V) → BigramLanguageModel V D α)
    (rs : ℕ → String → ℕ → Fin batch_size → ℕ) (rb : ℕ → Fin batch_size → ℕ)
    (i : ℕ) (s : MState V D α) :
    (train_iter ops optStep trainD valD hTr hVal rs rb i s).2 =
      if i % eval_interval = 0
      then some (estimate_loss ops s trainD valD hTr hVal (rs i)).1
      else none := by
  unfold train_iter
  by_cases hi : i % eval_interval = 0
  · rw [if_pos hi, if_pos hi]
  · rw [if_neg hi, if_neg hi]

/-- C8: estimate_loss leaves every model parameter unchanged, ends with the
model back in training mode after having switched it to evaluation mode for
the duration of the passes, and reports for each split the mean of eval_iters
independent batch losses computed from the unchanged parameters; and the
training loop invokes it exactly at the iterations divisible by eval_interval. -/
theorem estimate_loss_frame (ops : NumOps ℝ) {V D : ℕ} (trainD valD : List (Fin V))
    (hTr : block_size < trainD.length) (hVal : block_size < valD.length)
    (optStep : BigramLanguageModel V D ℝ → (Fin batch_size → Fin block_size → Fin V) →
      (Fin batch_size → Fin block_size → Fin V) → BigramLanguageModel V D ℝ)
    (rs : ℕ → String → ℕ → Fin batch_size → ℕ) (rb : ℕ → Fin batch_size → ℕ)
    (s₀ : MState V D ℝ) (nIter : ℕ) :
    (∀ (s : MState V D ℝ) (rr : String → ℕ → Fin batch_size → ℕ),
      (estimate_loss ops s trainD valD hTr hVal rr).2.params = s.params ∧
      (estimate_loss ops s trainD valD hTr hVal rr).2.training = true ∧
      (model_eval s).training = false ∧
      (model_eval s).params = s.params ∧
      (estimate_loss ops s trainD valD hTr hVal rr).1 "train" =
        (∑ k ∈ Finset.range eval_iters,
            model_loss ops s.params (get_batchD trainD hTr (rr "train" k)).1
              (get_batchD trainD hTr (rr "train" k)).2 le_rfl) / (eval_iters : ℝ) ∧
      (estimate_loss ops s trainD valD hTr hVal rr).1 "val" =
        (∑ k ∈ Finset.range eval_iters,
            model_loss ops s.params (get_batchD valD hVal (rr "val" k)).1
              (get_batchD valD hVal (rr "val" k)).2 le_rfl) / (eval_iters : ℝ)) ∧
    (training_loop ops optStep trainD valD hTr hVal rs rb nIter s₀).2.map Prod.fst =
      (List.range nIter).filter (fun i => i % eval_interval = 0) := by
  constructor
  · intro s rr
    exact ⟨rfl, rfl, rfl, rfl, rfl, rfl⟩
  · induction nIter with
    | zero => rfl
    | succ m ihm =>
      have hunf : (training_loop ops optStep trainD valD hTr hVal rs rb (m + 1) s₀).2 =
          (training_loop ops optStep trainD valD hTr hVal rs rb m s₀).2 ++
            Option.elim
              (train_iter ops optStep trainD valD hTr hVal rs rb m
                (training_loop ops optStep trainD valD hTr hVal rs rb m s₀).1).2
              [] (fun o => [(m, o)]) := rfl
      rw [hunf, List.map_append, ihm, List.range_succ, List.filter_append]
      congr 1
      rw [train_iter_report]
      by_cases hm : m % eval_interval = 0
      · rw [if_pos hm]
        simp [Option.elim, List.filter, hm]
      · rw [if_neg hm]
        simp [Option.elim, List.filter, hm]

/-- Witness for C8: the log of the first iteration of a concrete training run
records exactly the single estimate_loss invocation at iteration 0. -/
theorem estimate_loss_frame_witness :
    (training_loop (⟨Real.exp, Real.log, Real.sqrt⟩ : NumOps ℝ) (fun p _ _ => p)
        (List.replicate 9 (0 : Fin 1)) (List.replicate 9 (0 : Fin 1)) (by decide) (by decide)
        (fun _ _ _ _ => 0) (fun _ _ => 0) 1
        (⟨⟨fun _ _ => 0, fun _ _ => 0, [], ⟨fun _ => 1, fun _ => 0⟩,
          ⟨fun _ _ => 0, fun _ => 0⟩⟩, true⟩ : MState 1 1 ℝ)).2.map Prod.fst =
      (List.range 1).filter (fun i => i % eval_interval = 0) :=
  (estimate_loss_frame (⟨Real.exp, Real.log, Real.sqrt⟩ : NumOps ℝ)
      (List.replicate 9 (0 : Fin 1)) (List.replicate 9 (0 : Fin 1)) (by decide) (by decide)
      (fun p _ _ => p) (fun _ _ _ _ => 0) (fun _ _ => 0)
      (⟨⟨fun _ _ => 0, fun _ _ => 0, [], ⟨fun _ => 1, fun _ => 0⟩,
        ⟨fun _ _ => 0, fun _ => 0⟩⟩, true⟩ : MState 1 1 ℝ) 1).2

end NanoGPT
